import Mathlib

/-!
Verification model of the CT-SEG solver core: the insert-segment Monte-Carlo
move (moves/insert_segment.cpp) and the G/F imaginary-time measurement
(measures/G_F_tau.cpp).

Imaginary-time points (the C++ `tau_t`) are modelled as rationals in `[0, β]`
with cyclic subtraction.  Doubles are modelled as rationals; the two
genuinely floating-point-specific operations the move uses — `std::exp` and
`std::isfinite` — are modelled as abstract function parameters carried in the
work-data record, since no verified property depends on their values.
External collaborators (the determinant fast-update engine, the
overlap/kernel utilities, the random source, the mesh) are modelled by their
interface contracts as stated in the specification.
-/

namespace Ctseg

/-- Cyclic (β-periodic) subtraction of imaginary-time points: the model of
`tau_t::operator-` for values in `[0, β]`. -/
def csub (beta a b : ℚ) : ℚ := if b ≤ a then a - b else a - b + beta

/-- A segment `{tau_c, tau_cdag}`: creation and annihilation times of one
occupied interval (configuration.hpp, field order as in the spec data
model). -/
structure Segment where
  tau_c : ℚ
  tau_cdag : ℚ
deriving DecidableEq

instance : Inhabited Segment := ⟨⟨0, 0⟩⟩

/-- Segment length `tau_c - tau_cdag` (cyclic). -/
def Segment.len (beta : ℚ) (s : Segment) : ℚ := csub beta s.tau_c s.tau_cdag

/-- Modelled from the spec: `is_full_line` (configuration.hpp is not among
the provided sources).  The full-line sentinel is "a single degenerate
segment spanning the whole circle", i.e. `{β, 0}`. -/
def is_full_line (beta : ℚ) (s : Segment) : Bool :=
  decide (s.tau_c = beta) && decide (s.tau_cdag = 0)

/-- The external determinant fast-update manager for one color, modelled by
the interface contract of §6 of the spec: committed row keys `xs`
(annihilation times), column keys `ys` (creation times), the inverse-matrix
query `minv`, and at most one pending trial insertion.  The externally
computed numbers — the signed determinant ratio of a trial and the
post-commit inverse matrix — are abstract oracle fields (`ratioFn`,
`minvNext`); no verified property depends on their values. -/
structure Det where
  xs : List (ℚ × ℕ)
  ys : List (ℚ × ℕ)
  minv : ℕ → ℕ → ℚ
  minvNext : ℕ → ℕ → ℚ
  ratioFn : ℕ → ℕ → (ℚ × ℕ) → (ℚ × ℕ) → ℚ
  pending : Option (ℕ × ℕ × (ℚ × ℕ) × (ℚ × ℕ))

instance : Inhabited Det := ⟨⟨[], [], fun _ _ => 0, fun _ _ => 0, fun _ _ _ _ => 0, none⟩⟩

/-- Matrix dimension: the number of committed rows. -/
def Det.size (d : Det) : ℕ := d.xs.length

/-- `get_x(i)`: the i-th row time-key. -/
def Det.get_x (d : Det) (i : ℕ) : ℚ × ℕ := d.xs.getD i (0, 0)

/-- `get_y(i)`: the i-th column time-key. -/
def Det.get_y (d : Det) (i : ℕ) : ℚ × ℕ := d.ys.getD i (0, 0)

/-- `try_insert(i, j, x, y)`: record a pending trial insertion and return the
(externally computed) signed determinant ratio. -/
def Det.try_insert (d : Det) (i j : ℕ) (x y : ℚ × ℕ) : Det × ℚ :=
  ({ d with pending := some (i, j, x, y) }, d.ratioFn i j x y)

/-- `reject_last_try()`: discard the pending trial (a no-op when none is
pending). -/
def Det.reject_last_try (d : Det) : Det := { d with pending := none }

/-- `complete_operation()`: commit the pending trial, inserting the new row
and column keys at the recorded positions and switching to the (abstract)
updated inverse matrix. -/
def Det.complete_operation (d : Det) : Det :=
  match d.pending with
  | none => d
  | some (i, j, x, y) =>
    { xs := d.xs.insertIdx i x, ys := d.ys.insertIdx j y,
      minv := d.minvNext, minvNext := d.minvNext, ratioFn := d.ratioFn, pending := none }

/-- A configuration: one ordered segment list per color. -/
structure Configuration where
  seglists : List (List Segment)
deriving Inhabited

/-- Number of colors. -/
def Configuration.n_color (c : Configuration) : ℕ := c.seglists.length

/-- The mutable Monte-Carlo state the move reads and writes: the
configuration and the per-color determinant managers (`wdata.dets`). -/
structure MCState where
  config : Configuration
  dets : List Det

/-- Read-mostly work data used by the insert move.  `overlapFn` and
`kOverlapFn` are the external pure overlap utilities; `K` is (the real part
of) the retarded kernel; `expFn` and `isfiniteFn` are the abstract models of
`std::exp` and `std::isfinite`. -/
structure Wdata where
  beta : ℚ
  mu : ℕ → ℚ
  U : ℕ → ℕ → ℚ
  has_Dt : Bool
  K : ℚ → ℕ → ℕ → ℚ
  overlapFn : List Segment → Segment → ℚ
  kOverlapFn : List Segment → ℚ → ℚ → (ℚ → ℕ → ℕ → ℚ) → ℕ → ℕ → ℚ
  expFn : ℚ → ℚ
  isfiniteFn : ℚ → Bool

/-- The random draws one `attempt` consumes, in source order: the color, the
index of the existing segment bounding the window, and the two time offsets
drawn uniformly in the window. -/
structure Draws where
  color : ℕ
  segIdx : ℕ
  dt1 : ℚ
  dt2 : ℚ

/-- The chosen color's segment list (`config.seglists[color]`). -/
def theSeglist (st : MCState) (color : ℕ) : List Segment :=
  st.config.seglists.getD color []

/-- `wtau_left` of insert_segment.cpp lines 18-30: β for an empty list, else
the chosen segment's annihilation time. -/
def wtau_left (beta : ℚ) (sl : List Segment) (segIdx : ℕ) : ℚ :=
  if sl.isEmpty then beta else (sl.getD segIdx default).tau_cdag

/-- `wtau_right` of insert_segment.cpp lines 18-30: 0 for an empty list, else
the next segment's creation time (cyclically). -/
def wtau_right (sl : List Segment) (segIdx : ℕ) : ℚ :=
  if sl.isEmpty then 0
  else (sl.getD (if segIdx = sl.length - 1 then 0 else segIdx + 1) default).tau_c

/-- `window_length` of insert_segment.cpp line 33. -/
def window_length (beta : ℚ) (sl : List Segment) (segIdx : ℕ) : ℚ :=
  if sl.isEmpty then beta else csub beta (wtau_left beta sl segIdx) (wtau_right sl segIdx)

/-- Modelled from the spec: the repository's `lower_bound(f, n, v)` helper
(util, not among the provided sources) — "locate the insertion row/column
positions via binary search", i.e. the number of keys strictly below the
target in an ascending key sequence. -/
def lower_bound (f : ℕ → ℚ) (n : ℕ) (v : ℚ) : ℕ :=
  ((List.range n).filter (fun i => decide (f i < v))).length

/-- insert_segment.cpp line 42: order the two offsets unless the list is
empty (`if (dt1 > dt2 and !sl.empty()) std::swap(dt1, dt2)`). -/
def swappedDts (sl : List Segment) (dt1 dt2 : ℚ) : ℚ × ℚ :=
  if dt1 > dt2 ∧ ¬sl.isEmpty then (dt2, dt1) else (dt1, dt2)

/-- insert_segment.cpp line 43: the trial segment
`{wtau_left - dt1, wtau_left - dt2}` built from the (possibly swapped)
offsets. -/
def prop_seg_of (beta : ℚ) (sl : List Segment) (segIdx : ℕ) (dt1 dt2 : ℚ) : Segment :=
  ⟨csub beta (wtau_left beta sl segIdx) (swappedDts sl dt1 dt2).1,
   csub beta (wtau_left beta sl segIdx) (swappedDts sl dt1 dt2).2⟩

/-- `ln_trace_ratio` of insert_segment.cpp lines 47-56: chemical-potential
gain, minus interaction overlap with every other color, plus retarded-kernel
overlaps and the double-counting correction. -/
def ln_trace_weight (wd : Wdata) (st : MCState) (color : ℕ) (seg : Segment) : ℚ :=
  wd.mu color * seg.len wd.beta
    + ((List.range st.config.n_color).map (fun c =>
        (if c ≠ color then -(wd.U color c) * wd.overlapFn (theSeglist st c) seg else 0)
          + (if wd.has_Dt then wd.kOverlapFn (theSeglist st c) seg.tau_c seg.tau_cdag wd.K color c
             else 0))).sum
    + (if wd.has_Dt then -(wd.K (csub wd.beta seg.tau_c seg.tau_cdag) color color) else 0)

/-- insert_segment.cpp lines 59-66: locate the row/column insertion positions
and request the trial determinant insertion (`tau_cdag` as row, `tau_c` as
column); returns the updated manager (with pending trial) and the signed
determinant ratio. -/
def det_try_of (st : MCState) (color : ℕ) (seg : Segment) : Det × ℚ :=
  let D := st.dets.getD color default
  D.try_insert
    (lower_bound (fun i => (D.get_x i).1) D.size seg.tau_cdag)
    (lower_bound (fun i => (D.get_y i).1) D.size seg.tau_c)
    (seg.tau_cdag, 0) (seg.tau_c, 0)

/-- `prop_ratio` of insert_segment.cpp lines 70-73:
`(max(1, N) * L * L / (sl.empty() ? 1 : 2)) / (N + 1)`. -/
def prop_weight (sl : List Segment) (L : ℚ) : ℚ :=
  (max 1 (sl.length : ℚ) * L * L / (if sl.isEmpty then 1 else 2)) / ((sl.length : ℚ) + 1)

/-- The move-local values `attempt` leaves behind for `accept`:
the trial segment, `det_sign`, and the three factors of the weight. -/
structure MoveVars where
  prop_seg : Segment
  signDet : ℚ
  traceW : ℚ
  detW : ℚ
  propW : ℚ

/-- The full outcome of one `attempt` call: the returned weight, the
post-call mutable state, the chosen color, and the move-local values
(`none` on the early `return 0` paths, where no trial was requested). -/
structure AttemptOut where
  weight : ℚ
  state : MCState
  color : ℕ
  vars : Option MoveVars

/-- The early `return 0` outcome: weight 0, state untouched, no trial. -/
def attemptFail (st : MCState) (color : ℕ) : AttemptOut := ⟨0, st, color, none⟩

/-- The main path of `attempt` (insert_segment.cpp lines 26-80), reached when
the list is not a full line and the two drawn offsets differ. -/
def attemptGo (wd : Wdata) (st : MCState) (r : Draws) : AttemptOut :=
  let sl := theSeglist st r.color
  let seg := prop_seg_of wd.beta sl r.segIdx r.dt1 r.dt2
  let tr := det_try_of st r.color seg
  let traceW := wd.expFn (ln_trace_weight wd st r.color seg)
  let propW := prop_weight sl (window_length wd.beta sl r.segIdx)
  let signDet : ℚ := if tr.2 > 0 then 1 else -1
  let prod := traceW * tr.2 * propW
  ⟨if wd.isfiniteFn prod then prod else signDet,
   ⟨st.config, st.dets.set r.color tr.1⟩, r.color,
   some ⟨seg, signDet, traceW, tr.2, propW⟩⟩

/-- `insert_segment::attempt` (insert_segment.cpp lines 7-81).  The two early
exits: a non-empty list whose last entry is the full line, and two equal
drawn offsets. -/
def attempt (wd : Wdata) (st : MCState) (r : Draws) : AttemptOut :=
  if !(theSeglist st r.color).isEmpty
      && is_full_line wd.beta ((theSeglist st r.color).getLastD default) then
    attemptFail st r.color
  else if r.dt1 = r.dt2 then attemptFail st r.color
  else attemptGo wd st r

/-- Modelled from the spec: the segment comparison used by
`std::upper_bound` in `accept` (configuration.hpp's `operator<` is not among
the provided sources).  Per the spec data model, segments are ordered "by
`tau_cdag`", the list being kept in decreasing-time order (the insertion
window runs from a segment's `tau_cdag` down to the next segment's
`tau_c`). -/
def segLt (a b : Segment) : Bool := decide (b.tau_cdag < a.tau_cdag)

/-- The `std::upper_bound` insertion position: the number of leading list
entries `e` with `¬ (v < e)`. -/
def upper_bound_idx (sl : List Segment) (v : Segment) : ℕ :=
  (sl.takeWhile (fun e => !segLt v e)).length

/-- insert_segment.cpp lines 96-98: insert the trial segment at the position
that preserves sort order. -/
def insertSorted (sl : List Segment) (v : Segment) : List Segment :=
  sl.insertIdx (upper_bound_idx sl v) v

/-- The determinant managers after `accept` commits the pending trial of the
chosen color (insert_segment.cpp line 93). -/
def acceptDets (st : MCState) (color : ℕ) : List Det :=
  st.dets.set color ((st.dets.getD color default).complete_operation)

/-- The configuration after `accept` inserts the trial segment into the
chosen color's list (insert_segment.cpp lines 96-98). -/
def acceptConfig (st : MCState) (color : ℕ) (seg : Segment) : Configuration :=
  ⟨st.config.seglists.set color (insertSorted (theSeglist st color) seg)⟩

/-- `sign_ratio = final_sign / initial_sign` of insert_segment.cpp lines
89-104: the configuration sign recomputed after the insertion divided by the
sign recomputed before it.  `configSign` is the repository's `config_sign`
function (configuration.cpp, not among the provided sources), kept abstract:
every property proved below holds for an arbitrary sign function. -/
def sign_ratio_of (configSign : Configuration → List Det → ℚ) (st : MCState)
    (color : ℕ) (seg : Segment) : ℚ :=
  configSign (acceptConfig st color seg) (acceptDets st color) / configSign st.config st.dets

/-- `insert_segment::accept` (insert_segment.cpp lines 85-113): commit the
trial determinant insertion, insert the trial segment in sorted order,
recompute the configuration sign before and after, and check
`ALWAYS_EXPECTS(sign_ratio * det_sign == 1.0)`.  A violated check fatally
aborts the run, modelled as `none`; a normal return yields the sign ratio
and the mutated state. -/
def accept (configSign : Configuration → List Det → ℚ) (st : MCState)
    (color : ℕ) (mv : MoveVars) : Option (ℚ × MCState) :=
  if sign_ratio_of configSign st color mv.prop_seg * mv.signDet = 1 then
    some (sign_ratio_of configSign st color mv.prop_seg,
          ⟨acceptConfig st color mv.prop_seg, acceptDets st color⟩)
  else none

/-- `insert_segment::reject` (insert_segment.cpp lines 116-119): the sole
effect is `wdata.dets[color].reject_last_try()`. -/
def reject (st : MCState) (color : ℕ) : MCState :=
  ⟨st.config, st.dets.set color ((st.dets.getD color default).reject_last_try)⟩

/-! ## The G/F measurement (measures/G_F_tau.cpp) -/

/-- An imaginary-time histogram family: block index → bin index → matrix
index pair → accumulated value (the model of a `block_gf<imtime>`). -/
abbrev Hist := ℕ → ℕ → ℕ × ℕ → ℚ

/-- The everywhere-zero histogram. -/
def zeroHist : Hist := fun _ _ _ => 0

/-- The measurement parameters read from `params_t`.  `delta` is the
external mesh's bin width (`mesh().delta()`). -/
structure GFParams where
  beta : ℚ
  measure_F_tau : Bool
  n_tau_G : ℕ
  delta : ℚ

/-- The work-data and configuration pieces the measurement reads.
`closest_mesh_pt` is the external mesh's nearest-bin map;
`block_to_color`, `n_tauFn` and `kOverlapFn` are the external
density/overlap utilities declared in §6 of the spec. -/
structure MeasWdata where
  beta : ℚ
  dets : List Det
  block_to_color : ℕ → ℕ → ℕ
  U : ℕ → ℕ → ℚ
  has_Dt : Bool
  has_Jperp : Bool
  Kprime : ℚ → ℕ → ℕ → ℚ
  Kprime_spin : ℚ → ℕ → ℕ → ℚ
  n_tauFn : ℚ → List Segment → ℚ
  kOverlapFn : List Segment → ℚ → Bool → (ℚ → ℕ → ℕ → ℚ) → ℕ → ℕ → ℚ
  seglists : List (List Segment)
  closest_mesh_pt : ℚ → ℕ

/-- The accumulator state of the `G_F_tau` measure.  The C++ member
`F_tau` is always a concrete `block_gf`; it is modelled as `Option Hist`
with `some` meaning "storage allocated", so that allocation is observable
(the constructor allocates it unconditionally, lines 31-33). -/
structure GFState where
  measure_F_tau : Bool
  Z : ℚ
  G_tau : Hist
  F_tau : Option Hist

/-- The `G_F_tau` constructor (G_F_tau.cpp lines 23-35): the effective flag
is `p.measure_F_tau and wdata.rot_inv`; both histograms are allocated and
zero-initialized unconditionally; `Z` starts at 0. -/
def GFInit (p : GFParams) (rot_inv : Bool) : GFState :=
  { measure_F_tau := p.measure_F_tau && rot_inv,
    Z := 0, G_tau := zeroHist, F_tau := some zeroHist }

/-- `G_F_tau::fprefactor` (G_F_tau.cpp lines 97-113): the local potential
prefactor for the F measurement, summed over all colors. -/
def fprefactor (w : MeasWdata) (block : ℕ) (y : ℚ × ℕ) : ℚ :=
  let color := w.block_to_color block y.2
  ((List.range w.seglists.length).map (fun c =>
    let sl := w.seglists.getD c []
    let ntau := w.n_tauFn y.1 sl
    (if c ≠ color then w.U c color * ntau else 0)
      + (if w.has_Dt then
          -(w.kOverlapFn sl y.1 false w.Kprime c color)
            + (if c = color then -(2 * w.Kprime 0 c c) else 0)
         else 0)
      + (if w.has_Jperp then
          -(4 * w.Kprime_spin 0 c color * ntau)
            - 2 * w.kOverlapFn sl y.1 false w.Kprime_spin c color
         else 0))).sum

/-- One pending histogram update: target block, bin, matrix indices, and the
value to add. -/
structure Upd where
  bl : ℕ
  bin : ℕ
  ab : ℕ × ℕ
  val : ℚ

/-- Apply one `+=` to a histogram. -/
def bump (g : Hist) (u : Upd) : Hist := fun bl bin ab =>
  if bl = u.bl ∧ bin = u.bin ∧ ab = u.ab then g bl bin ab + u.val else g bl bin ab

/-- Apply a list of `+=` updates in order. -/
def applyUpds (g : Hist) (l : List Upd) : Hist := l.foldl bump g

/-- The loop indices of `accumulate` in iteration order: every block, every
row index `id_y`, every column index `id_x` (G_F_tau.cpp lines 45-62). -/
def gIdx (w : MeasWdata) : List (ℕ × ℕ × ℕ) :=
  (List.range w.dets.length).flatMap (fun bl =>
    (List.range (w.dets.getD bl default).size).flatMap (fun iy =>
      (List.range (w.dets.getD bl default).size).map (fun ix => (bl, iy, ix))))

/-- One G-histogram update of `accumulate` (G_F_tau.cpp lines 54-59),
exactly as the source computes it:
`val = (y.first >= x.first ? s : -s) * Minv`, binned at
`closest_mesh_pt(y.first - x.first)` with matrix indices
`(y.second, x.second)`. -/
def gUpd (w : MeasWdata) (s : ℚ) (t : ℕ × ℕ × ℕ) : Upd :=
  let det := w.dets.getD t.1 default
  let y := det.get_y t.2.1
  let x := det.get_x t.2.2
  { bl := t.1, bin := w.closest_mesh_pt (csub w.beta y.1 x.1), ab := (y.2, x.2),
    val := (if y.1 ≥ x.1 then s else -s) * det.minv t.2.1 t.2.2 }

/-- The same update value phrased as the specification states it: the value
is `s × Minv` with its sign flipped exactly when the row time-key is
strictly smaller than the column time-key. -/
def gUpdClaim (w : MeasWdata) (s : ℚ) (t : ℕ × ℕ × ℕ) : Upd :=
  let det := w.dets.getD t.1 default
  let y := det.get_y t.2.1
  let x := det.get_x t.2.2
  { bl := t.1, bin := w.closest_mesh_pt (csub w.beta y.1 x.1), ab := (y.2, x.2),
    val := if y.1 < x.1 then -(s * det.minv t.2.1 t.2.2) else s * det.minv t.2.1 t.2.2 }

/-- One F-histogram update (G_F_tau.cpp line 60): the same value scaled by
`fprefactor(bl, y)`. -/
def fUpd (w : MeasWdata) (s : ℚ) (t : ℕ × ℕ × ℕ) : Upd :=
  let det := w.dets.getD t.1 default
  let y := det.get_y t.2.1
  let x := det.get_x t.2.2
  { bl := t.1, bin := w.closest_mesh_pt (csub w.beta y.1 x.1), ab := (y.2, x.2),
    val := (if y.1 ≥ x.1 then s else -s) * det.minv t.2.1 t.2.2 * fprefactor w t.1 y }

/-- `G_F_tau::accumulate` (G_F_tau.cpp lines 39-64): add `s` to `Z`, add
every `gUpd` into the G histogram, and, when the F measurement is enabled,
every `fUpd` into the F histogram. -/
def accumulate (w : MeasWdata) (s : ℚ) (st : GFState) : GFState :=
  { measure_F_tau := st.measure_F_tau,
    Z := st.Z + s,
    G_tau := applyUpds st.G_tau ((gIdx w).map (gUpd w s)),
    F_tau := if st.measure_F_tau then
        st.F_tau.map (fun f => applyUpds f ((gIdx w).map (fUpd w s)))
      else st.F_tau }

/-- The cross-worker elementwise sum of the `Z` accumulators
(`mpi::all_reduce`, externally provided). -/
def reduceZ (ws : List GFState) : ℚ := (ws.map GFState.Z).sum

/-- The cross-worker elementwise sum of the G histograms. -/
def reduceG (ws : List GFState) : Hist :=
  fun bl bin ab => (ws.map (fun w => w.G_tau bl bin ab)).sum

/-- The cross-worker elementwise sum of the F histograms. -/
def reduceF (ws : List GFState) : Hist :=
  fun bl bin ab => (ws.map (fun w => (w.F_tau.getD zeroHist) bl bin ab)).sum

/-- The rescaling `h / (-beta * Z * delta)` of G_F_tau.cpp lines 73 and 85. -/
def rescale (p : GFParams) (Z : ℚ) (h : Hist) : Hist :=
  fun bl bin ab => h bl bin ab / (-p.beta * Z * p.delta)

/-- Double the value stored at bin `i` of every block (`g[i] *= 2`). -/
def doubleAt (i : ℕ) (h : Hist) : Hist :=
  fun bl bin ab => if bin = i then 2 * h bl bin ab else h bl bin ab

/-- The endpoint fix-up of G_F_tau.cpp lines 76-79 and 87-90: `g[0] *= 2`
then `g[mesh.size() - 1] *= 2`. -/
def fixEnds (n : ℕ) (h : Hist) : Hist := doubleAt (n - 1) (doubleAt 0 h)

/-- What `collect_results` publishes into `results_t`: the normalized G
histogram and, only when the F measurement is enabled, the normalized F
histogram (`results_t::F_tau` is an optional). -/
structure GFResults where
  G_tau : Hist
  F_tau : Option Hist

/-- `G_F_tau::collect_results` (G_F_tau.cpp lines 68-93), with the all-reduce
modelled as the elementwise sum over the calling worker (`self`) and the
other workers: reduce `Z`, reduce each histogram, rescale it by
`1 / (-beta * Z * delta)`, double the first and last bins, and publish.
Returns the reduced `Z` (kept in the member) and the published results. -/
def collect_results (p : GFParams) (self : GFState) (others : List GFState) :
    ℚ × GFResults :=
  let ws := self :: others
  let Zr := reduceZ ws
  let Gr := fixEnds p.n_tau_G (rescale p Zr (reduceG ws))
  if self.measure_F_tau then
    (Zr, ⟨Gr, some (fixEnds p.n_tau_G (rescale p Zr (reduceF ws)))⟩)
  else (Zr, ⟨Gr, none⟩)

/-! ## Concrete fixtures used by witnesses and counterexamples -/

/-- The move-local values as produced on the main path of `attempt`. -/
def goVars (wd : Wdata) (st : MCState) (r : Draws) : MoveVars :=
  let sl := theSeglist st r.color
  let seg := prop_seg_of wd.beta sl r.segIdx r.dt1 r.dt2
  let tr := det_try_of st r.color seg
  ⟨seg, if tr.2 > 0 then 1 else -1, wd.expFn (ln_trace_weight wd st r.color seg), tr.2,
   prop_weight sl (window_length wd.beta sl r.segIdx)⟩

/-- A concrete work-data record with β = 10 and trivial external oracles. -/
def wdEx : Wdata :=
  { beta := 10, mu := fun _ => 0, U := fun _ _ => 0, has_Dt := false,
    K := fun _ _ _ => 0, overlapFn := fun _ _ => 0,
    kOverlapFn := fun _ _ _ _ _ _ => 0, expFn := fun _ => 1,
    isfiniteFn := fun _ => true }

/-- The same work data with a finiteness oracle reporting overflow. -/
def wdInf : Wdata := { wdEx with isfiniteFn := fun _ => false }

/-- One color holding the single segment `{8, 5}`; one determinant
manager with no pending trial. -/
def stOne : MCState := ⟨⟨[[⟨8, 5⟩]]⟩, [default]⟩

/-- One color whose list is the full line `{β, 0}` at β = 10. -/
def stFull : MCState := ⟨⟨[[⟨10, 0⟩]]⟩, [default]⟩

/-- Concrete draws: color 0, segment 0, offsets dt1 = 1, dt2 = 2. -/
def rEx : Draws := ⟨0, 0, 1, 2⟩

/-- A constant configuration-sign function. -/
def csOne : Configuration → List Det → ℚ := fun _ _ => 1

/-- Concrete move-local values for the `accept` witness. -/
def mvW : MoveVars := ⟨⟨4, 3⟩, 1, 1, 1, 1⟩

/-- Concrete measurement parameters with the F measurement requested. -/
def pC : GFParams := ⟨1, true, 3, 1⟩

/-- Concrete measurement parameters with the F measurement not requested. -/
def pF : GFParams := ⟨1, false, 3, 1⟩

/-- Concrete measurement work data with empty determinant list and trivial
external oracles. -/
def wM : MeasWdata :=
  ⟨1, [], fun _ _ => 0, fun _ _ => 0, false, false, fun _ _ _ => 0,
   fun _ _ _ => 0, fun _ _ => 0, fun _ _ _ _ _ _ => 0, [], fun _ => 0⟩

/-! ## Helper lemmas -/

theorem list_set_getD_self {α : Type _} (l : List α) (i : ℕ) (d : α) :
    l.set i (l.getD i d) = l := by
  induction l generalizing i with
  | nil => rfl
  | cons a t ih =>
    cases i with
    | zero => simp
    | succ n =>
      show a :: t.set n (t.getD n d) = a :: t
      rw [ih]

theorem list_getD_set_self {α : Type _} (l : List α) (i : ℕ) (a d : α)
    (hi : i < l.length) : (l.set i a).getD i d = a := by
  induction l generalizing i with
  | nil => simp at hi
  | cons x t ih =>
    cases i with
    | zero => simp
    | succ n =>
      show (t.set n a).getD n d = a
      exact ih n (by simpa using hi)

theorem reject_last_try_id (d : Det) (h : d.pending = none) :
    d.reject_last_try = d := by
  obtain ⟨xs, ys, m1, m2, rf, pd⟩ := d
  simp only at h
  subst h
  rfl

theorem attemptGo_vars (wd : Wdata) (st : MCState) (r : Draws) :
    (attemptGo wd st r).vars = some (goVars wd st r) := rfl

theorem attemptGo_weight (wd : Wdata) (st : MCState) (r : Draws) :
    (attemptGo wd st r).weight =
      if wd.isfiniteFn
          ((goVars wd st r).traceW * (goVars wd st r).detW * (goVars wd st r).propW) then
        (goVars wd st r).traceW * (goVars wd st r).detW * (goVars wd st r).propW
      else (goVars wd st r).signDet := rfl

theorem attempt_of_vars_some (wd : Wdata) (st : MCState) (r : Draws) (mv : MoveVars)
    (h : (attempt wd st r).vars = some mv) :
    attempt wd st r = attemptGo wd st r ∧ mv = goVars wd st r := by
  unfold attempt at h ⊢
  split_ifs at h ⊢ with h1 h2
  · simp [attemptFail] at h
  · simp [attemptFail] at h
  · rw [attemptGo_vars] at h
    exact ⟨rfl, (Option.some.inj h).symm⟩

theorem applyUpds_point (l : List Upd) (g : Hist) (bl bin : ℕ) (ab : ℕ × ℕ) :
    applyUpds g l bl bin ab = g bl bin ab +
      ((l.filter (fun u => decide (bl = u.bl ∧ bin = u.bin ∧ ab = u.ab))).map Upd.val).sum := by
  induction l generalizing g with
  | nil => simp [applyUpds]
  | cons u t ih =>
    show applyUpds (bump g u) t bl bin ab = _
    rw [ih, List.filter_cons]
    by_cases hc : bl = u.bl ∧ bin = u.bin ∧ ab = u.ab
    · rw [if_pos (by simpa using hc), List.map_cons, List.sum_cons]
      show (if bl = u.bl ∧ bin = u.bin ∧ ab = u.ab then g bl bin ab + u.val
            else g bl bin ab) + _ = _
      rw [if_pos hc]
      ring
    · rw [if_neg (by simpa using hc)]
      show (if bl = u.bl ∧ bin = u.bin ∧ ab = u.ab then g bl bin ab + u.val
            else g bl bin ab) + _ = _
      rw [if_neg hc]

theorem flip_sign_eq (a b s m : ℚ) :
    (if a ≥ b then s else -s) * m = if a < b then -(s * m) else s * m := by
  rcases lt_or_ge a b with h | h
  · rw [if_neg (not_le.mpr h), if_pos h]
    ring
  · rw [if_pos h, if_neg (not_lt.mpr h)]

theorem gUpd_eq_claim (w : MeasWdata) (s : ℚ) (t : ℕ × ℕ × ℕ) :
    gUpd w s t = gUpdClaim w s t := by
  simp only [gUpd, gUpdClaim]
  rw [flip_sign_eq]

theorem fixEnds_point (n : ℕ) (h : Hist) (bl bin : ℕ) (ab : ℕ × ℕ) (hn : 2 ≤ n) :
    fixEnds n h bl bin ab = (if bin = 0 ∨ bin = n - 1 then 2 else 1) * h bl bin ab := by
  unfold fixEnds doubleAt
  by_cases h0 : bin = 0
  · rw [if_neg (by omega), if_pos h0, if_pos (Or.inl h0)]
  · by_cases h1 : bin = n - 1
    · rw [if_pos h1, if_neg h0, if_pos (Or.inr h1)]
    · rw [if_neg h1, if_neg h0, if_neg (by tauto), one_mul]

/-! ## Claim theorems -/

/-- C5: `propose` returns exactly 0, leaves Configuration and Determinant
state unchanged, and requests no trial determinant insertion, whenever the
chosen color's segment list is a full line or the two drawn time offsets are
exactly equal. -/
theorem degenerate_proposal_returns_zero (wd : Wdata) (st : MCState) (r : Draws)
    (h : ((!(theSeglist st r.color).isEmpty)
            && is_full_line wd.beta ((theSeglist st r.color).getLastD default)) = true
         ∨ r.dt1 = r.dt2) :
    attempt wd st r = attemptFail st r.color ∧
    (attempt wd st r).weight = 0 ∧
    (attempt wd st r).state = st ∧
    (attempt wd st r).vars = none := by
  have he : attempt wd st r = attemptFail st r.color := by
    unfold attempt
    rcases h with h | h
    · rw [if_pos h]
    · split_ifs with h1
      · rfl
      · rfl
  exact ⟨he, by rw [he]; rfl, by rw [he]; rfl, by rw [he]; rfl⟩

/-- C5 witness: a concrete full-line color makes the proposal fail with the
state untouched. -/
theorem degenerate_proposal_returns_zero_witness :
    attempt wdEx stFull rEx = attemptFail stFull rEx.color ∧
    (attempt wdEx stFull rEx).weight = 0 ∧
    (attempt wdEx stFull rEx).state = stFull ∧
    (attempt wdEx stFull rEx).vars = none :=
  degenerate_proposal_returns_zero wdEx stFull rEx (Or.inl (by decide))

/-- C6: for every proposal (including the early-failure ones), `reject`
restores Configuration and Determinant state exactly to their pre-propose
values, provided the move starts from an idle state (no pending trial on the
chosen color's determinant manager). -/
theorem reject_restores_state (wd : Wdata) (st : MCState) (r : Draws)
    (h : (st.dets.getD r.color default).pending = none) :
    reject (attempt wd st r).state (attempt wd st r).color = st := by
  have hfail : reject st r.color = st := by
    unfold reject
    rw [reject_last_try_id _ h, list_set_getD_self]
  unfold attempt
  split_ifs with h1 h2
  · exact hfail
  · exact hfail
  · show reject (attemptGo wd st r).state (attemptGo wd st r).color = st
    unfold attemptGo reject
    simp only
    rcases Nat.lt_or_ge r.color st.dets.length with hc | hc
    · rw [list_getD_set_self _ _ _ _ hc]
      have hrej :
          ((det_try_of st r.color
              (prop_seg_of wd.beta (theSeglist st r.color) r.segIdx r.dt1 r.dt2)).1).reject_last_try
            = st.dets.getD r.color default := by
        show ((st.dets.getD r.color default).reject_last_try) = st.dets.getD r.color default
        exact reject_last_try_id _ h
      rw [hrej, List.set_set, list_set_getD_self]
    · rw [List.set_eq_of_length_le hc, List.set_eq_of_length_le hc]

/-- C6 witness: a concrete proposal followed by `reject` gives back the
original state. -/
theorem reject_restores_state_witness :
    reject (attempt wdEx stOne rEx).state (attempt wdEx stOne rEx).color = stOne :=
  reject_restores_state wdEx stOne rEx rfl

/-- C1: for every `accept` call (over an arbitrary configuration-sign
function), a normal return yields the sign ratio `final/initial`, and that
ratio times the stored determinant-ratio sign equals exactly 1; when the
product differs from 1 the run fatally aborts (`none`) instead of
returning. -/
theorem accept_sign_invariant (cs : Configuration → List Det → ℚ)
    (st : MCState) (color : ℕ) (mv : MoveVars) :
    (sign_ratio_of cs st color mv.prop_seg * mv.signDet = 1 →
       accept cs st color mv =
         some (sign_ratio_of cs st color mv.prop_seg,
               ⟨acceptConfig st color mv.prop_seg, acceptDets st color⟩)) ∧
    (sign_ratio_of cs st color mv.prop_seg * mv.signDet ≠ 1 →
       accept cs st color mv = none) ∧
    (∀ r st2, accept cs st color mv = some (r, st2) →
       r * mv.signDet = 1 ∧ r = cs st2.config st2.dets / cs st.config st.dets) := by
  unfold accept
  split_ifs with hc
  · refine ⟨fun _ => rfl, fun hn => absurd hc hn, fun r st2 heq => ?_⟩
    obtain ⟨h1, h2⟩ := Prod.mk.injEq .. ▸ Option.some.inj heq
    subst h1
    subst h2
    exact ⟨hc, rfl⟩
  · exact ⟨fun hp => absurd hp hc, fun _ => rfl, fun r st2 heq => by simp at heq⟩

/-- C1 witness: a concrete accepted insertion (constant sign function)
satisfies the sign check and returns normally. -/
theorem accept_sign_invariant_witness :
    accept csOne stOne 0 mvW =
      some (sign_ratio_of csOne stOne 0 mvW.prop_seg,
            ⟨acceptConfig stOne 0 mvW.prop_seg, acceptDets stOne 0⟩) :=
  (accept_sign_invariant csOne stOne 0 mvW).1
    (by norm_num [sign_ratio_of, csOne, mvW])

/-- C2 counterexample: with a non-empty list (segment `{8, 5}`, so
`window_left = 5`) and drawn offsets `dt1 = 1 < dt2 = 2`, the code's trial
segment is `{4, 3}`: its creation time is `window_left − smaller offset`,
not `window_left − larger offset = 3` as claimed. -/
theorem prop_seg_swap_counterexample :
    (attempt wdEx stOne rEx).vars.map MoveVars.prop_seg = some ⟨4, 3⟩ ∧
    csub wdEx.beta (wtau_left wdEx.beta (theSeglist stOne rEx.color) rEx.segIdx)
        (max rEx.dt1 rEx.dt2) = 3 ∧
    (4 : ℚ) ≠ 3 := by
  have he : attempt wdEx stOne rEx = attemptGo wdEx stOne rEx := by
    unfold attempt
    rw [if_neg (by decide), if_neg (by norm_num [rEx])]
  refine ⟨?_, ?_, by norm_num⟩
  · rw [he, attemptGo_vars]
    show some (prop_seg_of wdEx.beta (theSeglist stOne rEx.color) rEx.segIdx
        rEx.dt1 rEx.dt2) = _
    norm_num [prop_seg_of, swappedDts, wtau_left, theSeglist, csub, wdEx, stOne, rEx]
  · norm_num [csub, wtau_left, theSeglist, stOne, rEx, wdEx]

/-- C2 (amended): in `propose`, when the chosen color's segment list is
non-empty the two drawn offsets are ordered so the smaller is subtracted
first: the trial segment's creation time is `window_left − smaller offset`
and its annihilation time is `window_left − larger offset`; when the list is
empty no reordering happens, so offsets `dt1`, `dt2` yield the segment
`{β − dt1, β − dt2}` unswapped. -/
theorem prop_seg_swap_amended (wd : Wdata) (st : MCState) (r : Draws)
    (hfl : ¬(((!(theSeglist st r.color).isEmpty)
        && is_full_line wd.beta ((theSeglist st r.color).getLastD default)) = true))
    (hne : r.dt1 ≠ r.dt2) (hd1 : r.dt1 ≤ wd.beta) (hd2 : r.dt2 ≤ wd.beta) :
    (theSeglist st r.color = [] →
       (attempt wd st r).vars.map MoveVars.prop_seg =
         some ⟨wd.beta - r.dt1, wd.beta - r.dt2⟩) ∧
    (theSeglist st r.color ≠ [] →
       (attempt wd st r).vars.map MoveVars.prop_seg =
         some ⟨csub wd.beta (wtau_left wd.beta (theSeglist st r.color) r.segIdx)
                 (min r.dt1 r.dt2),
               csub wd.beta (wtau_left wd.beta (theSeglist st r.color) r.segIdx)
                 (max r.dt1 r.dt2)⟩) := by
  have he : attempt wd st r = attemptGo wd st r := by
    unfold attempt
    rw [if_neg hfl, if_neg hne]
  rw [he, attemptGo_vars]
  constructor
  · intro hsl
    have hwl : wtau_left wd.beta (theSeglist st r.color) r.segIdx = wd.beta := by
      unfold wtau_left
      rw [hsl]
      rfl
    have hsw : swappedDts (theSeglist st r.color) r.dt1 r.dt2 = (r.dt1, r.dt2) := by
      unfold swappedDts
      rw [if_neg]
      rintro ⟨-, hne2⟩
      exact hne2 (by rw [hsl]; rfl)
    show some (prop_seg_of wd.beta (theSeglist st r.color) r.segIdx r.dt1 r.dt2) = _
    unfold prop_seg_of
    rw [hsw, hwl]
    unfold csub
    rw [if_pos hd1, if_pos hd2]
  · intro hsl
    have hsw : swappedDts (theSeglist st r.color) r.dt1 r.dt2
        = (min r.dt1 r.dt2, max r.dt1 r.dt2) := by
      unfold swappedDts
      have hni : ¬(theSeglist st r.color).isEmpty := by
        simpa [List.isEmpty_iff] using hsl
      rcases lt_or_gt_of_ne hne with hlt | hgt
      · rw [if_neg (by rintro ⟨hgt2, -⟩; exact absurd hgt2 (not_lt.mpr hlt.le))]
        rw [min_eq_left hlt.le, max_eq_right hlt.le]
      · rw [if_pos ⟨hgt, hni⟩, min_eq_right hgt.le, max_eq_left hgt.le]
    show some (prop_seg_of wd.beta (theSeglist st r.color) r.segIdx r.dt1 r.dt2) = _
    unfold prop_seg_of
    rw [hsw]

/-- C2 amended witness: the concrete non-empty case, offsets 1 and 2 around
`window_left = 5`, gives the segment `{5 − 1, 5 − 2} = {4, 3}`. -/
theorem prop_seg_swap_amended_witness :
    (attempt wdEx stOne rEx).vars.map MoveVars.prop_seg =
      some ⟨csub wdEx.beta (wtau_left wdEx.beta (theSeglist stOne rEx.color) rEx.segIdx)
              (min rEx.dt1 rEx.dt2),
            csub wdEx.beta (wtau_left wdEx.beta (theSeglist stOne rEx.color) rEx.segIdx)
              (max rEx.dt1 rEx.dt2)⟩ :=
  (prop_seg_swap_amended wdEx stOne rEx (by decide) (by norm_num [rEx])
      (by norm_num [rEx, wdEx]) (by norm_num [rEx, wdEx])).2 (by decide)

/-- C3: for every proposal that reaches the proposal-ratio computation, the
proposal ratio equals `(max(1, N) × L² / d) / (N + 1)`, where `N` is the
chosen color's segment count before insertion, `L` is the insertion-window
length, and `d` is 2 when the list is non-empty and 1 when it is empty. -/
theorem proposal_weight_formula (wd : Wdata) (st : MCState) (r : Draws) (mv : MoveVars)
    (h : (attempt wd st r).vars = some mv) :
    mv.propW =
      (max 1 ((theSeglist st r.color).length : ℚ)
          * window_length wd.beta (theSeglist st r.color) r.segIdx ^ 2
          / (if (theSeglist st r.color).length = 0 then 1 else 2))
        / (((theSeglist st r.color).length : ℚ) + 1) := by
  obtain ⟨-, rfl⟩ := attempt_of_vars_some wd st r mv h
  show prop_weight (theSeglist st r.color)
      (window_length wd.beta (theSeglist st r.color) r.segIdx) = _
  unfold prop_weight
  rw [pow_two]
  by_cases hsl : theSeglist st r.color = []
  · simp [hsl]
  · rw [if_neg (by simpa [List.isEmpty_iff] using hsl),
      if_neg (fun hz => hsl (List.length_eq_zero.mp hz))]
    ring

/-- C3 witness: the formula instantiated at a concrete one-segment
proposal. -/
theorem proposal_weight_formula_witness :
    (goVars wdEx stOne rEx).propW =
      (max 1 ((theSeglist stOne rEx.color).length : ℚ)
          * window_length wdEx.beta (theSeglist stOne rEx.color) rEx.segIdx ^ 2
          / (if (theSeglist stOne rEx.color).length = 0 then 1 else 2))
        / (((theSeglist stOne rEx.color).length : ℚ) + 1) :=
  proposal_weight_formula wdEx stOne rEx (goVars wdEx stOne rEx)
    (by
      unfold attempt
      rw [if_neg (by decide), if_neg (by norm_num [rEx]), attemptGo_vars])

/-- C4: for every proposal that completes, if the product
`trace_ratio × det_ratio × prop_ratio` is (reported) finite, `propose`
returns that product; otherwise it returns the stored determinant-ratio
sign, which is exactly +1 or −1. -/
theorem weight_overflow_fallback (wd : Wdata) (st : MCState) (r : Draws) (mv : MoveVars)
    (h : (attempt wd st r).vars = some mv) :
    (wd.isfiniteFn (mv.traceW * mv.detW * mv.propW) = true →
       (attempt wd st r).weight = mv.traceW * mv.detW * mv.propW) ∧
    (wd.isfiniteFn (mv.traceW * mv.detW * mv.propW) = false →
       (attempt wd st r).weight = mv.signDet ∧
         (mv.signDet = 1 ∨ mv.signDet = -1)) := by
  obtain ⟨he, rfl⟩ := attempt_of_vars_some wd st r mv h
  rw [he, attemptGo_weight]
  constructor
  · intro hf
    rw [if_pos hf]
  · intro hf
    rw [if_neg (by rw [hf]; exact Bool.false_ne_true)]
    refine ⟨rfl, ?_⟩
    show (if (det_try_of st r.color _).2 > 0 then (1:ℚ) else -1) = 1 ∨
      (if (det_try_of st r.color _).2 > 0 then (1:ℚ) else -1) = -1
    split_ifs
    · exact Or.inl rfl
    · exact Or.inr rfl

/-- C4 witness: the finite branch at a concrete proposal whose finiteness
oracle reports true. -/
theorem weight_overflow_fallback_witness :
    (attempt wdEx stOne rEx).weight =
      (goVars wdEx stOne rEx).traceW * (goVars wdEx stOne rEx).detW
        * (goVars wdEx stOne rEx).propW :=
  (weight_overflow_fallback wdEx stOne rEx (goVars wdEx stOne rEx)
    (by
      unfold attempt
      rw [if_neg (by decide), if_neg (by norm_num [rEx]), attemptGo_vars])).1 rfl

/-- C10: the stored determinant-ratio sign is −1 whenever the determinant
ratio is ≤ 0 (a zero ratio is classified as negative) and +1 otherwise, so
the non-finite fallback return value is ±1 and never 0. -/
theorem det_sign_nonpositive_fallback (wd : Wdata) (st : MCState) (r : Draws)
    (mv : MoveVars) (h : (attempt wd st r).vars = some mv) :
    (mv.detW ≤ 0 → mv.signDet = -1) ∧
    (0 < mv.detW → mv.signDet = 1) ∧
    (wd.isfiniteFn (mv.traceW * mv.detW * mv.propW) = false →
       (attempt wd st r).weight = mv.signDet ∧ (attempt wd st r).weight ≠ 0) := by
  obtain ⟨he, rfl⟩ := attempt_of_vars_some wd st r mv h
  have hsd : (goVars wd st r).signDet =
      if (goVars wd st r).detW > 0 then (1:ℚ) else -1 := rfl
  refine ⟨fun hle => ?_, fun hlt => ?_, fun hf => ?_⟩
  · rw [hsd, if_neg (not_lt.mpr hle)]
  · rw [hsd, if_pos hlt]
  · rw [he, attemptGo_weight, if_neg (by rw [hf]; exact Bool.false_ne_true)]
    refine ⟨rfl, ?_⟩
    rw [hsd]
    split_ifs
    · norm_num
    · norm_num

/-- C10 witness: with the default (zero) determinant-ratio oracle and an
overflow-reporting finiteness oracle, the fallback value is −1, not 0. -/
theorem det_sign_nonpositive_fallback_witness :
    (goVars wdInf stOne rEx).signDet = -1 ∧
    ((attempt wdInf stOne rEx).weight = (goVars wdInf stOne rEx).signDet ∧
      (attempt wdInf stOne rEx).weight ≠ 0) := by
  have h : (attempt wdInf stOne rEx).vars = some (goVars wdInf stOne rEx) := by
    unfold attempt
    rw [if_neg (by decide), if_neg (by norm_num [rEx]), attemptGo_vars]
  refine ⟨(det_sign_nonpositive_fallback wdInf stOne rEx _ h).1 ?_,
    (det_sign_nonpositive_fallback wdInf stOne rEx _ h).2.2 rfl⟩
  show (det_try_of stOne rEx.color
      (prop_seg_of wdInf.beta (theSeglist stOne rEx.color) rEx.segIdx
        rEx.dt1 rEx.dt2)).2 ≤ 0
  show (0 : ℚ) ≤ 0
  exact le_refl 0

/-- C7: every `accumulate(s)` call adds exactly `s` to `Z`, and the primary
histogram at any point (block, bin, matrix indices) grows by the sum of all
matrix-entry contributions targeting that point, each contribution being
`s × inverse_matrix(row, column)` with its sign flipped exactly when the row
time-key is strictly smaller than the column time-key, binned at the mesh
point nearest the time difference of the two keys (`gUpdClaim`). -/
theorem accumulate_adds_contributions (w : MeasWdata) (s : ℚ) (st : GFState)
    (bl bin : ℕ) (ab : ℕ × ℕ) :
    (accumulate w s st).Z = st.Z + s ∧
    (accumulate w s st).G_tau bl bin ab = st.G_tau bl bin ab +
      ((((gIdx w).map (gUpdClaim w s)).filter
          (fun u => decide (bl = u.bl ∧ bin = u.bin ∧ ab = u.ab))).map Upd.val).sum := by
  refine ⟨rfl, ?_⟩
  show applyUpds st.G_tau ((gIdx w).map (gUpd w s)) bl bin ab = _
  rw [show (gIdx w).map (gUpd w s) = (gIdx w).map (gUpdClaim w s) from by
      rw [funext (gUpd_eq_claim w s)],
    applyUpds_point]

/-- C8: `collect_results` all-reduces `Z` and every histogram by elementwise
sum across workers, rescales each histogram by `1 / (−β × Z × bin_width)`,
and then doubles the first and the last bin, for the primary histogram and,
when enabled, the secondary one. -/
theorem collect_results_normalization (p : GFParams) (self : GFState)
    (others : List GFState) (bl bin : ℕ) (ab : ℕ × ℕ) (hn : 2 ≤ p.n_tau_G) :
    (collect_results p self others).1 = ((self :: others).map GFState.Z).sum ∧
    (collect_results p self others).2.G_tau bl bin ab =
      (if bin = 0 ∨ bin = p.n_tau_G - 1 then 2 else 1) *
        (((self :: others).map (fun w => w.G_tau bl bin ab)).sum
          / (-p.beta * ((self :: others).map GFState.Z).sum * p.delta)) ∧
    (self.measure_F_tau = true →
       ((collect_results p self others).2.F_tau.getD zeroHist) bl bin ab =
         (if bin = 0 ∨ bin = p.n_tau_G - 1 then 2 else 1) *
           (((self :: others).map (fun w => (w.F_tau.getD zeroHist) bl bin ab)).sum
             / (-p.beta * ((self :: others).map GFState.Z).sum * p.delta)) ∧
       (collect_results p self others).2.F_tau.isSome = true) := by
  have hg : fixEnds p.n_tau_G
        (rescale p (reduceZ (self :: others)) (reduceG (self :: others))) bl bin ab =
      (if bin = 0 ∨ bin = p.n_tau_G - 1 then 2 else 1) *
        (((self :: others).map (fun w => w.G_tau bl bin ab)).sum
          / (-p.beta * ((self :: others).map GFState.Z).sum * p.delta)) := by
    rw [fixEnds_point _ _ _ _ _ hn]
    rfl
  have hf : fixEnds p.n_tau_G
        (rescale p (reduceZ (self :: others)) (reduceF (self :: others))) bl bin ab =
      (if bin = 0 ∨ bin = p.n_tau_G - 1 then 2 else 1) *
        (((self :: others).map (fun w => (w.F_tau.getD zeroHist) bl bin ab)).sum
          / (-p.beta * ((self :: others).map GFState.Z).sum * p.delta)) := by
    rw [fixEnds_point _ _ _ _ _ hn]
    rfl
  cases hm : self.measure_F_tau with
  | true =>
    simp only [collect_results]
    rw [if_pos hm]
    exact ⟨rfl, hg, fun _ => ⟨hf, rfl⟩⟩
  | false =>
    simp only [collect_results]
    rw [if_neg (by rw [hm]; exact Bool.false_ne_true)]
    exact ⟨rfl, hg, fun hcon => absurd (hm ▸ hcon) Bool.false_ne_true⟩

/-- C8 witness: the normalization formula instantiated at a concrete
single-worker state with the F measurement enabled. -/
theorem collect_results_normalization_witness :
    (collect_results pC (GFInit pC true) []).1
        = (([GFInit pC true]).map GFState.Z).sum ∧
    (collect_results pC (GFInit pC true) []).2.G_tau 0 0 (0, 0) =
      (if 0 = 0 ∨ 0 = pC.n_tau_G - 1 then 2 else 1) *
        ((([GFInit pC true]).map (fun w => w.G_tau 0 0 (0, 0))).sum
          / (-pC.beta * (([GFInit pC true]).map GFState.Z).sum * pC.delta)) ∧
    ((collect_results pC (GFInit pC true) []).2.F_tau.getD zeroHist) 0 0 (0, 0) =
      (if 0 = 0 ∨ 0 = pC.n_tau_G - 1 then 2 else 1) *
        ((([GFInit pC true]).map (fun w => (w.F_tau.getD zeroHist) 0 0 (0, 0))).sum
          / (-pC.beta * (([GFInit pC true]).map GFState.Z).sum * pC.delta)) ∧
    (collect_results pC (GFInit pC true) []).2.F_tau.isSome = true := by
  have h := collect_results_normalization pC (GFInit pC true) [] 0 0 (0, 0) (by decide)
  exact ⟨h.1, h.2.1, (h.2.2 rfl).1, (h.2.2 rfl).2⟩

/-- C9 counterexample: with `measure_F_tau = false` (and `rot_inv = true`),
the constructor still allocates (and zero-initializes) the secondary
histogram, so "allocated only if requested and rotationally invariant" fails
as stated. -/
theorem F_histogram_gating_counterexample :
    (GFInit pF true).measure_F_tau = false ∧ (GFInit pF true).F_tau.isSome = true :=
  ⟨rfl, rfl⟩

/-- C9 (amended): the secondary histogram is accumulated into and published
only if the caller requested it and the model is rotationally invariant;
its storage itself is allocated (zero-initialized) unconditionally by the
constructor.  When either condition is false, the effective flag is false,
`accumulate` leaves the F histogram untouched, and `collect_results`
publishes only the primary histogram (`F_tau = none`). -/
theorem F_histogram_gating_amended (p : GFParams) (rot : Bool) (w : MeasWdata)
    (s : ℚ) (others : List GFState) (h : (p.measure_F_tau && rot) = false) :
    (GFInit p rot).measure_F_tau = false ∧
    (GFInit p rot).F_tau.isSome = true ∧
    (accumulate w s (GFInit p rot)).F_tau = (GFInit p rot).F_tau ∧
    (collect_results p (accumulate w s (GFInit p rot)) others).2.F_tau = none := by
  have hm : (GFInit p rot).measure_F_tau = false := h
  have hm2 : (accumulate w s (GFInit p rot)).measure_F_tau = false := hm
  refine ⟨hm, rfl, ?_, ?_⟩
  · show (if (GFInit p rot).measure_F_tau = true then
        (GFInit p rot).F_tau.map (fun f => applyUpds f ((gIdx w).map (fUpd w s)))
      else (GFInit p rot).F_tau) = (GFInit p rot).F_tau
    rw [hm]
    simp
  · unfold collect_results
    rw [if_neg (by simp [hm2])]

/-- C9 amended witness: the gating at concrete parameters with the F
measurement not requested. -/
theorem F_histogram_gating_amended_witness :
    (GFInit pF true).measure_F_tau = false ∧
    (GFInit pF true).F_tau.isSome = true ∧
    (accumulate wM 1 (GFInit pF true)).F_tau = (GFInit pF true).F_tau ∧
    (collect_results pF (accumulate wM 1 (GFInit pF true)) []).2.F_tau = none :=
  F_histogram_gating_amended pF true wM 1 [] rfl

end Ctseg
